import Mathlib

/-!
Shallow embedding of the mod-updater repository (src/lib.rs, src/modrinth.rs,
src/main.rs).  Pure data flow is translated directly; effects (network,
filesystem, stdin) are modelled as explicit inputs and effect logs:

* a registry response is a value of RegistryResponse (transport failure, or a
  status code with an optional decoded body);
* the current-directory listing, the set of files on disk, and the stdin lines
  consumed by prompts are inputs;
* files downloaded and files removed are returned as effect logs;
* Rust Result is RunResult.ok / RunResult.err and a Rust panic (Vec indexing
  out of bounds, Option::expect) is RunResult.panic;
* tokio JoinSet completion order is an explicit input list; a task panic
  surfaces at the join as Error.JoinError, exactly as a JoinError does in the
  drained Result.
-/

/-- Error enum from src/lib.rs.  Payload-free variants keep their names;
Reqwest and Io drop their payloads (transport / io error details), and
StatusCode keeps the numeric status. -/
inductive Error where
  | Reqwest : Error
  | NotFound : Error
  | StatusCode : Nat → Error
  | NoVersionsFound : Error
  | InvalidIndex : Error
  | NoFilesFound : Error
  | IoError : Error
  | Yaml : Error
  | JoinError : Error
  | NoGameVersions : Error
  | InvalidRequest : Error
deriving DecidableEq

/-- Result of running a piece of Rust code: normal return, Err propagated with
the question-mark operator, or a panic. -/
inductive RunResult (α : Type) where
  | ok : α → RunResult α
  | err : Error → RunResult α
  | panic : String → RunResult α
deriving DecidableEq

/-- Check for the err constructor, used to state counterexamples closedly. -/
def RunResult.isErr : RunResult α → Bool
  | .err _ => true
  | _ => false

/-- File struct from src/modrinth.rs (hashes and file_type omitted: passed
through opaquely and never read by the core). -/
structure File where
  url : String
  filename : String
  primary : Bool
  size : Int
deriving DecidableEq

/-- Version struct from src/modrinth.rs, restricted to the fields the core
reads: name, game_versions, loaders, files. -/
structure Version where
  name : String
  game_versions : List String
  loaders : List String
  files : List File
deriving DecidableEq

/-- VersionType enum from src/modrinth.rs. -/
inductive VersionType where
  | Release | Snapshot | Alpha | Beta
deriving DecidableEq

/-- GameVersion struct from src/modrinth.rs; the OffsetDateTime publication
date is modelled as an integer timestamp.  In Rust its PartialEq/Hash compare
only the version string; the embedding keeps structural equality and uses the
version string explicitly wherever the Rust code compares GameVersions. -/
structure GameVersion where
  version : String
  version_type : VersionType
  date : Int
  major : Bool
deriving DecidableEq

/-- InstalledMod struct from src/lib.rs. -/
structure InstalledMod where
  version : String
  file : String
deriving DecidableEq

/-- The manifest mapping (ModManifest.installed, a BTreeMap in src/lib.rs),
modelled as an association list with unique keys. -/
abbrev Manifest := List (String × InstalledMod)

/-- BTreeMap::contains_key. -/
def containsKey (m : Manifest) (k : String) : Bool :=
  m.any (fun p => p.1 == k)

/-- BTreeMap::get. -/
def lookupEntry : Manifest → String → Option InstalledMod
  | [], _ => none
  | (k2, v) :: rest, k => if k2 == k then some v else lookupEntry rest k

/-- BTreeMap::insert (overwrite the value if the key is present). -/
def insertEntry : Manifest → String → InstalledMod → Manifest
  | [], k, v => [(k, v)]
  | (k2, v2) :: rest, k, v =>
    if k2 == k then (k2, v) :: rest else (k2, v2) :: insertEntry rest k v

/-- BTreeMap::remove. -/
def eraseEntry (m : Manifest) (k : String) : Manifest :=
  m.filter (fun p => !(p.1 == k))

/-- Vec indexing, which panics when the index is out of bounds. -/
def vecIndex : List α → Nat → RunResult α
  | [], _ => .panic "index out of bounds"
  | a :: _, 0 => .ok a
  | _ :: rest, i + 1 => vecIndex rest i

/-- Registry response to one HTTP request: a transport-level failure, or a
status code together with the decoded JSON body (none when decoding fails). -/
inductive RegistryResponse where
  | transportError : RegistryResponse
  | response : Nat → Option (List Version) → RegistryResponse
deriving DecidableEq

/-- reqwest StatusCode::is_success (2xx). -/
def statusIsSuccess (s : Nat) : Bool := 200 ≤ s && s < 300

/-- get_versions from src/main.rs: send the version-list query and classify
the response.  A transport failure or a body that fails to decode is a
reqwest error; a 2xx gives the decoded list; 404 gives NotFound; every other
status is converted into Error::StatusCode via the From impl. -/
def get_versions : RegistryResponse → RunResult (List Version)
  | .transportError => .err .Reqwest
  | .response status body =>
    if statusIsSuccess status then
      match body with
      | some versions => .ok versions
      | none => .err .Reqwest
    else if status == 404 then .err .NotFound
    else .err (.StatusCode status)

/-- Rust str::trim on the character list of the input line. -/
def trimChars (cs : List Char) : List Char :=
  ((cs.dropWhile Char.isWhitespace).reverse.dropWhile Char.isWhitespace).reverse

/-- Digit run of usize::from_str: at least one ASCII digit and nothing else
(overflow is ignored: the prompts only ever deal in small indices). -/
def parseDigits : List Char → Nat → Option Nat
  | [], acc => some acc
  | c :: rest, acc =>
    if c.isDigit then parseDigits rest (acc * 10 + (c.toNat - 48)) else none

/-- buffer.trim().parse::<usize>() from the selection prompts: optional
leading plus sign, then one or more digits. -/
def parseUsize (buffer : String) : Option Nat :=
  match trimChars buffer.toList with
  | [] => none
  | c :: rest =>
    if c == '+' then
      match rest with
      | [] => none
      | _ => parseDigits rest 0
    else parseDigits (c :: rest) 0

/-- download_mod from src/main.rs, after get_versions succeeded with the
given list.  latest is the --latest flag; versionLine and fileLine are the
stdin lines that the two selection prompts would read; dl models
download_file on the chosen file (network plus file write).  Returns the
(mod_name, InstalledMod) pair together with the list of filenames whose bytes
were fetched.  The file-selection branch reproduces the source exactly: the
bound is checked against versions.len(), not files.len(). -/
def download_mod (mod_name : String) (versions : List Version) (latest : Bool)
    (versionLine fileLine : String) (dl : File → RunResult Unit) :
    RunResult (String × InstalledMod) × List String :=
  if versions.isEmpty then (.err .NoVersionsFound, [])
  else
    let pickVersion : RunResult Version :=
      if versions.length == 1 || latest then vecIndex versions 0
      else
        match parseUsize versionLine with
        | none => .err .InvalidIndex
        | some version_i =>
          if version_i ≥ versions.length then .err .InvalidIndex
          else vecIndex versions version_i
    match pickVersion with
    | .err e => (.err e, [])
    | .panic msg => (.panic msg, [])
    | .ok version =>
      let files := version.files
      if files.isEmpty then (.err .NoFilesFound, [])
      else
        let pickFile : RunResult File :=
          if files.length == 1 then vecIndex files 0
          else
            match parseUsize fileLine with
            | none => .err .InvalidIndex
            | some file_i =>
              if file_i ≥ versions.length then .err .InvalidIndex
              else vecIndex files file_i
        match pickFile with
        | .err e => (.err e, [])
        | .panic msg => (.panic msg, [])
        | .ok file =>
          match dl file with
          | .ok _ =>
            (.ok (mod_name, ⟨version.name, file.filename⟩), [file.filename])
          | .err e => (.err e, [file.filename])
          | .panic msg => (.panic msg, [file.filename])

/-- Inner loop of update_mod over versions[1..]: compare the directory entry
against version.files[0].filename for every older version, collecting the
filenames to delete; indexing files[0] panics when an older version has no
files. -/
def collectMatches (olders : List Version) (entry : String) :
    RunResult (List String) :=
  match olders with
  | [] => .ok []
  | v :: rest =>
    match v.files with
    | [] => .panic "index out of bounds"
    | f :: _ =>
      match collectMatches rest entry with
      | .ok l => .ok (if entry == f.filename then f.filename :: l else l)
      | .err e => .err e
      | .panic msg => .panic msg

/-- Directory scan of update_mod: walk the read_dir entries in order; finding
the newest file returns early (modelled as ok none), otherwise accumulate the
older tracked filenames found on disk. -/
def scanEntries (olders : List Version) (latestName : String) :
    List String → RunResult (Option (List String))
  | [] => .ok (some [])
  | e :: rest =>
    if e == latestName then .ok none
    else
      match collectMatches olders e with
      | .ok here =>
        match scanEntries olders latestName rest with
        | .ok none => .ok none
        | .ok (some l) => .ok (some (here ++ l))
        | .err er => .err er
        | .panic msg => .panic msg
      | .err er => .err er
      | .panic msg => .panic msg

/-- Removal loop of update_mod: remove_file each collected older file in
order, stopping at the first failure; the second component logs the files on
which remove_file was invoked. -/
def runRemovals (rm : String → RunResult Unit) :
    List String → RunResult Unit × List String
  | [] => (.ok (), [])
  | f :: rest =>
    match rm f with
    | .ok _ =>
      let r := runRemovals rm rest
      (r.1, f :: r.2)
    | .err e => (.err e, [f])
    | .panic msg => (.panic msg, [f])

/-- update_mod from src/main.rs, after get_versions succeeded with the given
list.  entries is the read_dir listing of the current directory in iteration
order; rm models tokio remove_file and dl models download_file.  Returns the
status message plus the effect logs (filenames removed, filenames fetched).
versions[0] and versions[0].files[0] are indexed without an emptiness check,
exactly as in the source. -/
def update_mod (mod_name : String) (entries : List String)
    (versions : List Version) (rm : String → RunResult Unit)
    (dl : File → RunResult Unit) :
    RunResult String × List String × List String :=
  match versions with
  | [] => (.panic "index out of bounds", [], [])
  | v0 :: olders =>
    match v0.files with
    | [] => (.panic "index out of bounds", [], [])
    | latest_file :: _ =>
      match scanEntries olders latest_file.filename entries with
      | .err e => (.err e, [], [])
      | .panic msg => (.panic msg, [], [])
      | .ok none =>
        (.ok ("\x27" ++ mod_name ++ "\x27 is already up to date"), [], [])
      | .ok (some exsiting) =>
        match runRemovals rm exsiting with
        | (.ok _, removed) =>
          match dl latest_file with
          | .ok _ =>
            (.ok ("Updated \x27" ++ mod_name ++ "\x27 to \x27" ++ v0.name ++ "\x27"),
              removed, [latest_file.filename])
          | .err e => (.err e, removed, [latest_file.filename])
          | .panic msg => (.panic msg, removed, [latest_file.filename])
        | (.err e, removed) => (.err e, removed, [])
        | (.panic msg, removed) => (.panic msg, removed, [])

/-- Mods spawned by pack download: the config mods whose key is absent from
the loaded manifest (src/main.rs download_mods, spawn loop). -/
def spawnedMods (mods : List String) (manifest : Manifest) : List String :=
  mods.filter (fun m => !(containsKey manifest m))

/-- Drain loop of download_mods: JoinSet::join_next in completion order; the
double question mark turns a task panic into Error::JoinError and stops at
the first non-Ok result; an Ok outcome is inserted into the manifest under
the name the task returned. -/
def drainDownload (taskResult : String → RunResult (String × InstalledMod))
    (manifest : Manifest) : List String → RunResult Manifest
  | [] => .ok manifest
  | m :: rest =>
    match taskResult m with
    | .ok (name, installed_mod) =>
      drainDownload taskResult (insertEntry manifest name installed_mod) rest
    | .err e => .err e
    | .panic _ => .err .JoinError

/-- download_mods from src/main.rs: spawn one download_mod task per config
mod not already in the manifest, drain the JoinSet, then persist the manifest
with try_save.  taskResult gives each spawned task's outcome; schedule
reorders the spawned tasks into JoinSet completion order (a faithful run
makes it a permutation).  The second component is the persisted manifest:
none when the command aborted before try_save. -/
def download_mods (mods : List String) (manifest : Manifest)
    (taskResult : String → RunResult (String × InstalledMod))
    (schedule : List String → List String) : RunResult Unit × Option Manifest :=
  match drainDownload taskResult manifest (schedule (spawnedMods mods manifest)) with
  | .ok m2 => (.ok (), some m2)
  | .err e => (.err e, none)
  | .panic msg => (.panic msg, none)

/-- tokio remove_file: deleting a file that is not on disk is an io NotFound
error, converted into Error::Io by the question mark. -/
def remove_file (disk : List String) (f : String) : RunResult Unit :=
  if disk.contains f then .ok () else .err .IoError

/-- Stable insertion sort modelling Rust slice::sort_by (a stable sort) under
the boolean total preorder le. -/
def insertLe (le : α → α → Bool) (a : α) : List α → List α
  | [] => [a]
  | b :: l => if le a b then a :: b :: l else b :: insertLe le a l

/-- Full stable sort by le. -/
def sortLe (le : α → α → Bool) : List α → List α
  | [] => []
  | a :: l => insertLe le a (sortLe le l)

/-- String order used by Config::try_save (self.mods.sort()). -/
def strLe (a b : String) : Bool := a ≤ b

/-- Result of remove_mod: the returned Result, the config written by
Config::try_save (none when not reached; try_save sorts the mod list), the
manifest written by ModManifest::try_save (none when not reached), and the
files deleted from disk. -/
structure RemoveOut where
  result : RunResult Unit
  savedConfig : Option (List String)
  savedManifest : Option Manifest
  removed : List String
deriving DecidableEq

/-- remove_mod from src/main.rs: a mod absent from the config is a no-op;
otherwise retain filters it out of the config, the tracked file (if any) is
deleted with remove_file and the question mark propagates its failure, the
manifest entry is removed, and config then manifest are saved. -/
def remove_mod (config_mods : List String) (manifest : Manifest)
    (mod_name : String) (disk : List String) : RemoveOut :=
  if !(config_mods.contains mod_name) then ⟨.ok (), none, none, []⟩
  else
    let config2 := config_mods.filter (fun m => !(m == mod_name))
    match lookupEntry manifest mod_name with
    | some installed_mod =>
      match remove_file disk installed_mod.file with
      | .ok _ =>
        ⟨.ok (), some (sortLe strLe config2),
          some (eraseEntry manifest mod_name), [installed_mod.file]⟩
      | .err e => ⟨.err e, none, none, []⟩
      | .panic msg => ⟨.panic msg, none, none, []⟩
    | none =>
      ⟨.ok (), some (sortLe strLe config2),
        some (eraseEntry manifest mod_name), []⟩

/-- Catalog lookup in compatible_versions:
game_versions.iter().find(|x| x.version == game_version), comparing by the
version string (the GameVersion PartialEq). -/
def catFind (catalog : List GameVersion) (s : String) : Option GameVersion :=
  catalog.find? (fun x => x.version == s)

/-- Push of compatible_versions:
if !versions.contains(game_version) { versions.push(...) }, where contains
compares by version string. -/
def pushUnique (versions : List GameVersion) (gv : GameVersion) :
    List GameVersion :=
  if versions.any (fun x => x.version == gv.version) then versions
  else versions ++ [gv]

/-- Per-mod set-building loop of compatible_versions over the flattened
declared version strings: each string is looked up in the catalog and
expect("Invalid game version") panics when it is absent; found versions are
deduplicated by version string. -/
def collectStrings (catalog : List GameVersion) :
    List String → List GameVersion → RunResult (List GameVersion)
  | [], acc => .ok acc
  | s :: rest, acc =>
    match catFind catalog s with
    | none => .panic "Invalid game version"
    | some gv => collectStrings catalog rest (pushUnique acc gv)

/-- All platform-version strings declared by a mod's releases, in iteration
order (outer loop over releases, inner loop over each release's
game_versions). -/
def declaredStrings (vs : List Version) : List String :=
  (vs.map (fun v => v.game_versions)).flatten

/-- The set of distinct supported platform versions of one mod
(compatible_versions, inner two loops). -/
def modSupportedSet (catalog : List GameVersion) (vs : List Version) :
    RunResult (List GameVersion) :=
  collectStrings catalog (declaredStrings vs) []

/-- Outer loop of compatible_versions over the joined per-mod version lists,
producing each mod's distinct supported set; the per-mod tallying is total so
building all sets first is observationally the same interleaving. -/
def collectSets (catalog : List GameVersion) :
    List (List Version) → RunResult (List (List GameVersion))
  | [] => .ok []
  | vs :: rest =>
    match modSupportedSet catalog vs with
    | .ok set =>
      match collectSets catalog rest with
      | .ok sets => .ok (set :: sets)
      | .err e => .err e
      | .panic msg => .panic msg
    | .err e => .err e
    | .panic msg => .panic msg

/-- version_support.entry(version).and_modify(|c| c += 1).or_insert(1): the
HashMap keyed by GameVersion (hash and equality on the version string),
modelled as an association list in insertion order. -/
def tallyInsert : List (GameVersion × Nat) → GameVersion → List (GameVersion × Nat)
  | [], gv => [(gv, 1)]
  | (k, c) :: rest, gv =>
    if k.version == gv.version then (k, c + 1) :: rest
    else (k, c) :: tallyInsert rest gv

/-- Tally of all per-mod sets (for version in versions { entry... }). -/
def tallyAll (sets : List (List GameVersion)) : List (GameVersion × Nat) :=
  sets.foldl (fun t set => set.foldl tallyInsert t) []

/-- Drain loop of compatible_versions: join_next results in completion order;
the double question mark stops at the first failure, a panicked task
surfacing as Error::JoinError. -/
def drainJoin : List (RunResult (List Version)) → RunResult (List (List Version))
  | [] => .ok []
  | r :: rest =>
    match r with
    | .ok vs =>
      match drainJoin rest with
      | .ok acc => .ok (vs :: acc)
      | .err e => .err e
      | .panic msg => .panic msg
    | .err e => .err e
    | .panic _ => .err .JoinError

/-- sort_by(|a, b| a.date.cmp(&b.date)) comparison. -/
def dateLe (a b : GameVersion) : Bool := a.date ≤ b.date

/-- compatible_versions from src/main.rs, with the already-fetched catalog
(get_game_versions) and fetch giving each spawned get_versions task's result.
The JoinSet completion order is modelled as submission order, a
determinization none of the proved properties depend on: the per-mod sets are
tallied as a multiset and the final sort is by date.  After the tally, the
versions whose count equals mods.len() are collected, sorted by date
ascending with the stable sort_by, and reversed. -/
def compatible_versions (catalog : List GameVersion)
    (fetch : String → RunResult (List Version)) (mods : List String) :
    RunResult (List GameVersion) :=
  match drainJoin (mods.map fetch) with
  | .err e => .err e
  | .panic msg => .panic msg
  | .ok mods_supported_versions =>
    match collectSets catalog mods_supported_versions with
    | .err e => .err e
    | .panic msg => .panic msg
    | .ok sets =>
      let version_support := tallyAll sets
      let compatible :=
        (version_support.filter (fun p => p.2 == mods.length)).map
          (fun p => p.1)
      .ok ((sortLe dateLe compatible).reverse)

/-- Check for the ok constructor. -/
def RunResult.isOk : RunResult α → Bool
  | .ok _ => true
  | _ => false

/-- C3 counterexample: a 400 response to the version-list query is classified
as Error::StatusCode(400) by get_versions, not as Error::InvalidRequest (that
mapping exists only in the search path of add_mod). -/
theorem get_versions_400_not_invalid_request :
    get_versions (.response 400 none) = .err (.StatusCode 400) ∧
    (.err (.StatusCode 400) : RunResult (List Version)) ≠ .err .InvalidRequest := by
  decide

/-- C3 (amended): get_versions classifies a version-list response as NotFound
when the status is 404, as StatusCode(status) for every other non-2xx status
(400 included), and a transport failure as a reqwest error. -/
theorem get_versions_classification (status : Nat) (body : Option (List Version))
    (hns : statusIsSuccess status = false) :
    (status = 404 → get_versions (.response status body) = .err .NotFound) ∧
    (status ≠ 404 → get_versions (.response status body) = .err (.StatusCode status)) ∧
    get_versions .transportError = .err .Reqwest := by
  refine ⟨fun h => ?_, fun h => ?_, rfl⟩
  · subst h
    simp [get_versions, hns]
  · simp [get_versions, hns, h]

/-- Witness for get_versions_classification at status 400. -/
theorem get_versions_classification_witness :
    statusIsSuccess 400 = false ∧
    ((400 = 404 → get_versions (.response 400 none) = .err .NotFound) ∧
     (400 ≠ 404 → get_versions (.response 400 none) = .err (.StatusCode 400)) ∧
     get_versions .transportError = .err .Reqwest) :=
  ⟨by decide, get_versions_classification 400 none (by decide)⟩

/-- C4: the file-selection prompt displays the chosen release's file list but
bounds-checks the parsed index against versions.len(); with three candidate
releases whose chosen release has two files, the input 2 passes the check and
files[2] panics instead of failing with the selection error.  No bytes are
fetched. -/
theorem download_mod_file_selection_panic :
    download_mod "sodium"
      [⟨"1.0", ["1.21"], ["fabric"],
         [⟨"u0", "a.jar", true, 1⟩, ⟨"u1", "b.jar", false, 1⟩]⟩,
       ⟨"0.9", ["1.20"], ["fabric"], [⟨"u2", "c.jar", true, 1⟩]⟩,
       ⟨"0.8", ["1.19"], ["fabric"], [⟨"u3", "d.jar", true, 1⟩]⟩]
      true "" "2" (fun _ => .ok ())
      = (.panic "index out of bounds", []) := by
  decide

/-- C5: an empty candidate release list makes download_mod return
NoVersionsFound, but update_mod indexes versions[0] with no emptiness check
and panics. -/
theorem empty_candidate_list_behavior :
    (update_mod "sodium" ["other.jar"] [] (fun _ => .ok ()) (fun _ => .ok ())).1
        = .panic "index out of bounds" ∧
    (download_mod "sodium" [] true "" "" (fun _ => .ok ())).1
        = .err .NoVersionsFound := by
  decide

/-- C7 counterexample: removing a pack mod whose tracked file is absent from
disk makes remove_file fail with an io error that the question mark
propagates: remove_mod returns Err and neither the config nor the manifest
is saved. -/
theorem remove_mod_missing_file_hard_error :
    remove_mod ["sodium"] [("sodium", ⟨"1.0", "sodium.jar"⟩)] "sodium" []
      = ⟨.err .IoError, none, none, []⟩ := by
  decide

/-- C7 (amended): for a pack mod tracked in the manifest, remove_mod deletes
the tracked file, removes the manifest entry and persists config and
manifest when the file is on disk; when the file is missing on disk the io
error is escalated (not tolerated) and nothing is persisted. -/
theorem remove_mod_behavior (config_mods : List String) (manifest : Manifest)
    (mod_name : String) (disk : List String) (im : InstalledMod)
    (hin : config_mods.contains mod_name = true)
    (him : lookupEntry manifest mod_name = some im) :
    (im.file ∈ disk →
      remove_mod config_mods manifest mod_name disk =
        ⟨.ok (),
         some (sortLe strLe (config_mods.filter (fun m => !(m == mod_name)))),
         some (eraseEntry manifest mod_name), [im.file]⟩) ∧
    (im.file ∉ disk →
      remove_mod config_mods manifest mod_name disk
        = ⟨.err .IoError, none, none, []⟩) := by
  have hin2 : mod_name ∈ config_mods := by
    simpa [List.contains, List.elem_iff] using hin
  constructor <;> intro hdisk <;>
    simp [remove_mod, hin2, him, remove_file, List.contains, List.elem_iff, hdisk]

/-- Witness for remove_mod_behavior with the tracked file present on disk. -/
theorem remove_mod_behavior_witness :
    ((["sodium"] : List String).contains "sodium" = true ∧
      lookupEntry [("sodium", ⟨"1.0", "sodium.jar"⟩)] "sodium"
        = some ⟨"1.0", "sodium.jar"⟩) ∧
    (((InstalledMod.mk "1.0" "sodium.jar").file ∈ ["sodium.jar"] →
      remove_mod ["sodium"] [("sodium", ⟨"1.0", "sodium.jar"⟩)] "sodium"
          ["sodium.jar"] =
        ⟨.ok (),
         some (sortLe strLe (["sodium"].filter (fun m => !(m == "sodium")))),
         some (eraseEntry [("sodium", ⟨"1.0", "sodium.jar"⟩)] "sodium"),
         [(InstalledMod.mk "1.0" "sodium.jar").file]⟩) ∧
     ((InstalledMod.mk "1.0" "sodium.jar").file ∉ ["sodium.jar"] →
      remove_mod ["sodium"] [("sodium", ⟨"1.0", "sodium.jar"⟩)] "sodium"
          ["sodium.jar"] = ⟨.err .IoError, none, none, []⟩)) :=
  ⟨⟨by decide, by decide⟩,
    remove_mod_behavior ["sodium"] [("sodium", ⟨"1.0", "sodium.jar"⟩)] "sodium"
      ["sodium.jar"] ⟨"1.0", "sodium.jar"⟩ (by decide) (by decide)⟩

/-- When every older release has at least one file, the per-entry comparison
loop of update_mod cannot panic. -/
theorem collectMatches_ok (olders : List Version) (e : String)
    (h : ∀ v ∈ olders, v.files ≠ []) :
    ∃ l, collectMatches olders e = .ok l := by
  induction olders with
  | nil => exact ⟨[], rfl⟩
  | cons v rest ih =>
    have hv : v.files ≠ [] := h v (by simp)
    obtain ⟨l, hl⟩ := ih (fun w hw => h w (by simp [hw]))
    match hf : v.files with
    | [] => exact absurd hf hv
    | f :: fs =>
      refine ⟨if e == f.filename then f.filename :: l else l, ?_⟩
      simp [collectMatches, hf, hl]

/-- When the newest file's name occurs among the directory entries, the scan
loop of update_mod returns early with the up-to-date outcome. -/
theorem scanEntries_finds (olders : List Version) (latestName : String)
    (entries : List String) (h : ∀ v ∈ olders, v.files ≠ [])
    (hmem : latestName ∈ entries) :
    scanEntries olders latestName entries = .ok none := by
  induction entries with
  | nil => cases hmem
  | cons e rest ih =>
    by_cases he : e = latestName
    · subst he
      simp [scanEntries]
    · have hbeq : (e == latestName) = false := by
        simp [he]
      have hrest : latestName ∈ rest := by
        rcases List.mem_cons.mp hmem with h1 | h1
        · exact absurd h1.symm he
        · exact h1
      obtain ⟨l, hl⟩ := collectMatches_ok olders e h
      simp [scanEntries, hbeq, hl, ih hrest]

/-- C9 counterexample: the scan loop indexes version.files[0] for every
older release on every non-matching entry, so an update task whose newest
release's first file a.jar is in the directory listing still panics when an
older release has no files and the non-matching entry b.jar is scanned
first, instead of reporting the mod as already up to date. -/
theorem update_mod_up_to_date_panic :
    ((File.mk "u0" "a.jar" true 1).filename ∈ ["b.jar", "a.jar"]) ∧
    update_mod "sodium" ["b.jar", "a.jar"]
        [⟨"1.0", ["1.21"], ["fabric"], [⟨"u0", "a.jar", true, 1⟩]⟩,
         ⟨"0.9", ["1.20"], ["fabric"], []⟩]
        (fun _ => .ok ()) (fun _ => .ok ())
      = (.panic "index out of bounds", [], []) := by
  decide

/-- C9 (amended): an update task whose newest release's first file is
already present in the directory listing reports the mod as already up to
date, removes no file and fetches no bytes — provided every older candidate
release has at least one file; otherwise the per-entry comparison loop can
index an empty files[0] and panic before the match is reached. -/
theorem update_mod_already_up_to_date (mod_name : String)
    (entries : List String) (versions : List Version)
    (rm : String → RunResult Unit) (dl : File → RunResult Unit)
    (v0 : Version) (olders : List Version) (latest_file : File)
    (fs : List File) (hv : versions = v0 :: olders)
    (hf : v0.files = latest_file :: fs)
    (holders : ∀ v ∈ olders, v.files ≠ [])
    (hmem : latest_file.filename ∈ entries) :
    update_mod mod_name entries versions rm dl =
      (.ok ("\x27" ++ mod_name ++ "\x27 is already up to date"), [], []) := by
  subst hv
  simp [update_mod, hf, scanEntries_finds olders latest_file.filename entries holders hmem]

/-- Witness for update_mod_already_up_to_date: one release whose file
sodium.jar is the sole directory entry. -/
theorem update_mod_already_up_to_date_witness :
    (([⟨"1.0", ["1.21"], ["fabric"], [⟨"u0", "sodium.jar", true, 1⟩]⟩]
        : List Version)
        = ⟨"1.0", ["1.21"], ["fabric"], [⟨"u0", "sodium.jar", true, 1⟩]⟩ :: [] ∧
      (Version.mk "1.0" ["1.21"] ["fabric"] [⟨"u0", "sodium.jar", true, 1⟩]).files
        = ⟨"u0", "sodium.jar", true, 1⟩ :: [] ∧
      (∀ v ∈ ([] : List Version), v.files ≠ []) ∧
      (File.mk "u0" "sodium.jar" true 1).filename ∈ ["sodium.jar"]) ∧
    update_mod "sodium" ["sodium.jar"]
        [⟨"1.0", ["1.21"], ["fabric"], [⟨"u0", "sodium.jar", true, 1⟩]⟩]
        (fun _ => .ok ()) (fun _ => .ok ()) =
      (.ok ("\x27" ++ "sodium" ++ "\x27 is already up to date"), [], []) :=
  ⟨⟨rfl, rfl, by simp, by decide⟩,
    update_mod_already_up_to_date "sodium" ["sodium.jar"]
      [⟨"1.0", ["1.21"], ["fabric"], [⟨"u0", "sodium.jar", true, 1⟩]⟩]
      (fun _ => .ok ()) (fun _ => .ok ())
      ⟨"1.0", ["1.21"], ["fabric"], [⟨"u0", "sodium.jar", true, 1⟩]⟩ []
      ⟨"u0", "sodium.jar", true, 1⟩ [] rfl rfl (by simp) (by decide)⟩

/-- Inserting under a key different from k leaves the binding of k
unchanged. -/
theorem lookup_insertEntry_ne (man : Manifest) (k name : String)
    (v : InstalledMod) (h : name ≠ k) :
    lookupEntry (insertEntry man name v) k = lookupEntry man k := by
  induction man with
  | nil => simp [insertEntry, lookupEntry, h]
  | cons p rest ih =>
    by_cases hp : p.1 = name
    · simp [insertEntry, hp, lookupEntry, h]
    · have : (p.1 == name) = false := by simp [hp]
      simp only [insertEntry]
      cases p with
      | mk k2 v2 =>
        simp only at this
        simp [this, lookupEntry, ih]

/-- The drain loop of download_mods never changes the binding of a key that
no completed task returns. -/
theorem drainDownload_preserves
    (taskResult : String → RunResult (String × InstalledMod)) (k : String) :
    ∀ (completion : List String) (man : Manifest),
      (∀ m ∈ completion, ∀ p, taskResult m = .ok p → p.1 ≠ k) →
      ∀ m2, drainDownload taskResult man completion = .ok m2 →
        lookupEntry m2 k = lookupEntry man k := by
  intro completion
  induction completion with
  | nil =>
    intro man _ m2 h2
    cases h2
    rfl
  | cons m rest ih =>
    intro man hno m2 h2
    simp only [drainDownload] at h2
    cases htask : taskResult m with
    | ok p =>
      rw [htask] at h2
      have hne : p.1 ≠ k := hno m (by simp) p htask
      have := ih (insertEntry man p.1 p.2) (fun m3 hm3 => hno m3 (by simp [hm3])) m2 ?_
      · rw [this, lookup_insertEntry_ne man k p.1 p.2 hne]
      · cases p
        exact h2
    | err e => rw [htask] at h2; cases h2
    | panic msg => rw [htask] at h2; cases h2

/-- C10: a pack download spawns no task for a mod already tracked in the
manifest, every spawned mod was absent from the manifest, and the persisted
manifest (when the command reaches try_save) maps an already-tracked mod to
its original entry. -/
theorem download_mods_skips_installed (mods : List String)
    (manifest : Manifest)
    (taskResult : String → RunResult (String × InstalledMod))
    (schedule : List String → List String) (m0 : String)
    (hperm : (schedule (spawnedMods mods manifest)).Perm
      (spawnedMods mods manifest))
    (hname : ∀ m p, taskResult m = .ok p → p.1 = m)
    (hm0 : containsKey manifest m0 = true) :
    m0 ∉ spawnedMods mods manifest ∧
    (∀ m ∈ spawnedMods mods manifest, containsKey manifest m = false) ∧
    (∀ m2, (download_mods mods manifest taskResult schedule).2 = some m2 →
      lookupEntry m2 m0 = lookupEntry manifest m0) := by
  have habsent : ∀ m ∈ spawnedMods mods manifest,
      containsKey manifest m = false := by
    intro m hm
    have := (List.mem_filter.mp hm).2
    simpa using this
  refine ⟨?_, habsent, ?_⟩
  · intro hmem
    rw [habsent m0 hmem] at hm0
    cases hm0
  · intro m2 h2
    have hno : ∀ m ∈ schedule (spawnedMods mods manifest),
        ∀ p, taskResult m = .ok p → p.1 ≠ m0 := by
      intro m hm p hp
      have hm2 : m ∈ spawnedMods mods manifest := hperm.mem_iff.mp hm
      rw [hname m p hp]
      intro heq
      rw [heq] at hm2
      rw [habsent m0 hm2] at hm0
      cases hm0
    simp only [download_mods] at h2
    cases hdrain : drainDownload taskResult manifest
        (schedule (spawnedMods mods manifest)) with
    | ok m3 =>
      rw [hdrain] at h2
      simp only [Option.some.injEq] at h2
      rw [← h2]
      exact drainDownload_preserves taskResult m0
        (schedule (spawnedMods mods manifest)) manifest hno m3 hdrain
    | err e => rw [hdrain] at h2; cases h2
    | panic msg => rw [hdrain] at h2; cases h2

/-- Witness for download_mods_skips_installed: mod a is already tracked, so
only mod b is spawned and a keeps its entry. -/
theorem download_mods_skips_installed_witness :
    ((id (spawnedMods ["a", "b"] [("a", ⟨"1.0", "a.jar"⟩)])).Perm
        (spawnedMods ["a", "b"] [("a", ⟨"1.0", "a.jar"⟩)]) ∧
      (∀ (m : String) (p : String × InstalledMod),
        (fun m2 : String => RunResult.ok (m2, InstalledMod.mk "2.0" "new.jar")) m
          = .ok p → p.1 = m) ∧
      containsKey [("a", ⟨"1.0", "a.jar"⟩)] "a" = true) ∧
    ("a" ∉ spawnedMods ["a", "b"] [("a", ⟨"1.0", "a.jar"⟩)] ∧
     (∀ m ∈ spawnedMods ["a", "b"] [("a", ⟨"1.0", "a.jar"⟩)],
        containsKey [("a", ⟨"1.0", "a.jar"⟩)] m = false) ∧
     (∀ m2, (download_mods ["a", "b"] [("a", ⟨"1.0", "a.jar"⟩)]
          (fun m3 => RunResult.ok (m3, InstalledMod.mk "2.0" "new.jar")) id).2
            = some m2 →
        lookupEntry m2 "a" = lookupEntry [("a", ⟨"1.0", "a.jar"⟩)] "a")) :=
  ⟨⟨List.Perm.refl _, fun m p hp => by cases hp; rfl, by decide⟩,
    download_mods_skips_installed ["a", "b"] [("a", ⟨"1.0", "a.jar"⟩)]
      (fun m3 => RunResult.ok (m3, InstalledMod.mk "2.0" "new.jar")) id "a"
      (List.Perm.refl _) (fun m p hp => by cases hp; rfl) (by decide)⟩

/-- C1 counterexample: three spawned downloads of which the middle one fails
at the transport level; download_mods returns the failure as a hard error
and the manifest is not persisted, so the two sibling Ok outcomes are lost
instead of being reconciled and saved. -/
theorem download_mods_one_failure_aborts :
    download_mods ["fabric-api", "sodium", "lithium"] []
      (fun m => if m == "sodium" then .err .Reqwest
                else .ok (m, ⟨"1.0", "a.jar"⟩)) id
      = (.err .Reqwest, none) := by
  decide

/-- Drain loop of download_mods: the first completed task that did not return
Ok stops the drain with an error. -/
theorem drainDownload_fails
    (taskResult : String → RunResult (String × InstalledMod)) :
    ∀ (completion : List String) (man : Manifest),
      (∃ m ∈ completion, (taskResult m).isOk = false) →
      ∃ e, drainDownload taskResult man completion = .err e := by
  intro completion
  induction completion with
  | nil =>
    intro man hfail
    obtain ⟨m, hm, _⟩ := hfail
    cases hm
  | cons m rest ih =>
    intro man hfail
    cases htask : taskResult m with
    | ok p =>
      obtain ⟨m2, hm2, hnok⟩ := hfail
      rcases List.mem_cons.mp hm2 with h1 | h1
      · subst h1
        rw [htask] at hnok
        cases hnok
      · obtain ⟨e, he⟩ := ih (insertEntry man p.1 p.2) ⟨m2, h1, hnok⟩
        refine ⟨e, ?_⟩
        simp only [drainDownload, htask]
        cases p
        exact he
    | err e =>
      exact ⟨e, by simp [drainDownload, htask]⟩
    | panic msg =>
      exact ⟨.JoinError, by simp [drainDownload, htask]⟩

/-- C1 (amended): when any task in the completion order fails (or panics),
the drain loop of download_mods stops there: the command returns that hard
error, the manifest is not persisted, and sibling Ok outcomes are merged
only in memory before the failure and discarded after it. -/
theorem download_mods_failure_not_persisted (mods : List String)
    (manifest : Manifest)
    (taskResult : String → RunResult (String × InstalledMod))
    (schedule : List String → List String)
    (hfail : ∃ m ∈ schedule (spawnedMods mods manifest),
      (taskResult m).isOk = false) :
    ∃ e, download_mods mods manifest taskResult schedule = (.err e, none) := by
  obtain ⟨e, he⟩ := drainDownload_fails taskResult
    (schedule (spawnedMods mods manifest)) manifest hfail
  exact ⟨e, by simp [download_mods, he]⟩

/-- Witness for download_mods_failure_not_persisted: a two-mod pack whose
second download fails. -/
theorem download_mods_failure_not_persisted_witness :
    (∃ m ∈ id (spawnedMods ["a", "b"] []),
      ((fun m2 => if m2 == "b" then RunResult.err .NotFound
                  else .ok (m2, InstalledMod.mk "1.0" "a.jar")) m).isOk
        = false) ∧
    ∃ e, download_mods ["a", "b"] []
        (fun m2 => if m2 == "b" then RunResult.err .NotFound
                   else .ok (m2, InstalledMod.mk "1.0" "a.jar")) id
      = (.err e, none) :=
  ⟨by decide,
    download_mods_failure_not_persisted ["a", "b"] []
      (fun m2 => if m2 == "b" then RunResult.err .NotFound
                 else .ok (m2, InstalledMod.mk "1.0" "a.jar")) id (by decide)⟩

/-- Inserting into the stable sort permutes consing. -/
theorem perm_insertLe (le : α → α → Bool) (a : α) (l : List α) :
    (insertLe le a l).Perm (a :: l) := by
  induction l with
  | nil => exact List.Perm.refl _
  | cons b rest ih =>
    simp only [insertLe]
    by_cases h : le a b = true
    · rw [if_pos h]
    · rw [if_neg h]
      exact (List.Perm.cons b ih).trans (List.Perm.swap a b rest)

/-- The stable sort is a permutation of its input. -/
theorem perm_sortLe (le : α → α → Bool) (l : List α) :
    (sortLe le l).Perm l := by
  induction l with
  | nil => exact List.Perm.refl _
  | cons a rest ih =>
    exact (perm_insertLe le a (sortLe le rest)).trans (List.Perm.cons a ih)

/-- Insertion preserves sortedness for a transitive total boolean order. -/
theorem pairwise_insertLe (le : α → α → Bool)
    (htrans : ∀ a b c, le a b = true → le b c = true → le a c = true)
    (htot : ∀ a b, le a b = true ∨ le b a = true) (a : α) (l : List α)
    (hl : l.Pairwise (fun x y => le x y = true)) :
    (insertLe le a l).Pairwise (fun x y => le x y = true) := by
  induction l with
  | nil => simp [insertLe]
  | cons b rest ih =>
    obtain ⟨hb, hrest⟩ := List.pairwise_cons.mp hl
    simp only [insertLe]
    by_cases h : le a b = true
    · rw [if_pos h]
      refine List.pairwise_cons.mpr ⟨?_, hl⟩
      intro c hc
      rcases List.mem_cons.mp hc with h1 | h1
      · subst h1; exact h
      · exact htrans a b c h (hb c h1)
    · rw [if_neg h]
      refine List.pairwise_cons.mpr ⟨?_, ih hrest⟩
      intro c hc
      have hc2 := (perm_insertLe le a rest).mem_iff.mp hc
      rcases List.mem_cons.mp hc2 with h1 | h1
      · rw [h1]
        rcases htot a b with h2 | h2
        · exact absurd h2 h
        · exact h2
      · exact hb c h1

/-- The stable sort is sorted for a transitive total boolean order. -/
theorem pairwise_sortLe (le : α → α → Bool)
    (htrans : ∀ a b c, le a b = true → le b c = true → le a c = true)
    (htot : ∀ a b, le a b = true ∨ le b a = true) (l : List α) :
    (sortLe le l).Pairwise (fun x y => le x y = true) := by
  induction l with
  | nil => simp [sortLe]
  | cons a rest ih => exact pairwise_insertLe le htrans htot a (sortLe le rest) ih

/-- Draining a JoinSet whose tasks all returned Ok yields all their values. -/
theorem drainJoin_ok_map (fetchL : String → List Version) (mods : List String) :
    drainJoin (mods.map (fun m => RunResult.ok (fetchL m)))
      = .ok (mods.map fetchL) := by
  induction mods with
  | nil => rfl
  | cons m rest ih => simp [drainJoin, ih]

/-- A successful catalog lookup returns a version with the looked-up
string. -/
theorem catFind_version {catalog : List GameVersion} {s : String}
    {gv : GameVersion} (h : catFind catalog s = some gv) : gv.version = s := by
  have := List.find?_some h
  simpa using this

/-- A successful catalog lookup returns a catalog element. -/
theorem catFind_mem {catalog : List GameVersion} {s : String}
    {gv : GameVersion} (h : catFind catalog s = some gv) : gv ∈ catalog :=
  List.mem_of_find?_eq_some h

/-- In a catalog with no duplicate version strings, looking up a member's
string finds that member. -/
theorem catFind_self (catalog : List GameVersion)
    (hcat : (catalog.map (fun x => x.version)).Nodup) (gv : GameVersion)
    (hmem : gv ∈ catalog) : catFind catalog gv.version = some gv := by
  induction catalog with
  | nil => cases hmem
  | cons x rest ih =>
    have hcat2 : (x.version ∉ rest.map (fun y => y.version)) ∧
        (rest.map (fun y => y.version)).Nodup := by
      simpa [List.nodup_cons] using hcat
    rcases List.mem_cons.mp hmem with h1 | h1
    · subst h1
      simp [catFind, List.find?]
    · have hx : (x.version == gv.version) = false := by
        rw [beq_eq_false_iff_ne]
        intro he
        exact hcat2.1 (he ▸ List.mem_map.mpr ⟨gv, h1, rfl⟩)
      simp only [catFind, List.find?, hx]
      exact ih hcat2.2 h1

/-- Every element of a pushUnique result comes from the accumulator or is
the pushed element. -/
theorem pushUnique_subset (acc : List GameVersion) (gv x : GameVersion)
    (h : x ∈ pushUnique acc gv) : x ∈ acc ∨ x = gv := by
  unfold pushUnique at h
  by_cases hc : acc.any (fun y => y.version == gv.version) = true
  · rw [if_pos hc] at h
    exact .inl h
  · rw [if_neg hc] at h
    rcases List.mem_append.mp h with h1 | h1
    · exact .inl h1
    · right
      simpa using h1

/-- pushUnique keeps the accumulator's elements. -/
theorem mem_pushUnique_of_mem (acc : List GameVersion) (gv x : GameVersion)
    (h : x ∈ acc) : x ∈ pushUnique acc gv := by
  unfold pushUnique
  split
  · exact h
  · exact List.mem_append.mpr (.inl h)

/-- When accumulator elements and the pushed element are canonical catalog
representatives, the pushed element ends up in the result even when its
string was already present. -/
theorem self_mem_pushUnique (catalog acc : List GameVersion) (gv : GameVersion)
    (hacc : ∀ y ∈ acc, catFind catalog y.version = some y)
    (hgv : catFind catalog gv.version = some gv) : gv ∈ pushUnique acc gv := by
  unfold pushUnique
  by_cases hc : acc.any (fun y => y.version == gv.version) = true
  · rw [if_pos hc]
    obtain ⟨y, hy, hbeq⟩ := List.any_eq_true.mp hc
    have hyv : y.version = gv.version := by simpa using hbeq
    have hfy : catFind catalog gv.version = some y := hyv ▸ hacc y hy
    have hygv : y = gv := by
      rw [hfy] at hgv
      injection hgv
    exact hygv ▸ hy
  · rw [if_neg hc]
    exact List.mem_append.mpr (.inr (by simp))

/-- Membership after pushUnique, for canonical elements. -/
theorem mem_pushUnique_iff (catalog acc : List GameVersion)
    (gv x : GameVersion)
    (hacc : ∀ y ∈ acc, catFind catalog y.version = some y)
    (hgv : catFind catalog gv.version = some gv) :
    x ∈ pushUnique acc gv ↔ x ∈ acc ∨ x = gv := by
  constructor
  · exact pushUnique_subset acc gv x
  · rintro (h | h)
    · exact mem_pushUnique_of_mem acc gv x h
    · exact h ▸ self_mem_pushUnique catalog acc gv hacc hgv

/-- pushUnique preserves canonicity of all elements. -/
theorem pushUnique_canon (catalog acc : List GameVersion) (gv : GameVersion)
    (hacc : ∀ y ∈ acc, catFind catalog y.version = some y)
    (hgv : catFind catalog gv.version = some gv) :
    ∀ y ∈ pushUnique acc gv, catFind catalog y.version = some y := by
  intro y hy
  rcases pushUnique_subset acc gv y hy with h | h
  · exact hacc y h
  · exact h ▸ hgv

/-- pushUnique preserves freedom from duplicate version strings. -/
theorem pushUnique_nodup (acc : List GameVersion) (gv : GameVersion)
    (h : (acc.map (fun x => x.version)).Nodup) :
    ((pushUnique acc gv).map (fun x => x.version)).Nodup := by
  unfold pushUnique
  by_cases hc : acc.any (fun y => y.version == gv.version) = true
  · rw [if_pos hc]
    exact h
  · rw [if_neg hc]
    rw [List.map_append]
    rw [List.nodup_append]
    refine ⟨h, by simp, ?_⟩
    intro s hs hs2
    have hgv : s = gv.version := by simpa using hs2
    obtain ⟨y, hy, hyv⟩ := List.mem_map.mp hs
    exact hc (List.any_eq_true.mpr ⟨y, hy, by simp [hyv, hgv]⟩)

/-- Total companion of one step of the set-building loop of
compatible_versions, naming the value collectStrings computes on the path
where every string is found. -/
def collectStep (catalog : List GameVersion) (acc : List GameVersion)
    (s : String) : List GameVersion :=
  match catFind catalog s with
  | some gv => pushUnique acc gv
  | none => acc

/-- The distinct supported set a mod contributes when all of its declared
strings are in the catalog. -/
def setOk (catalog : List GameVersion) (vs : List Version) :
    List GameVersion :=
  (declaredStrings vs).foldl (collectStep catalog) []

/-- On inputs whose strings are all in the catalog, the set-building loop
returns the fold of collectStep. -/
theorem collectStrings_eq_ok (catalog : List GameVersion) :
    ∀ (strs : List String) (acc : List GameVersion),
      (∀ s ∈ strs, (catFind catalog s).isSome) →
      collectStrings catalog strs acc
        = .ok (strs.foldl (collectStep catalog) acc) := by
  intro strs
  induction strs with
  | nil => intro acc _; rfl
  | cons s rest ih =>
    intro acc hall
    have hs := hall s (by simp)
    cases hfind : catFind catalog s with
    | none => rw [hfind] at hs; cases hs
    | some gv =>
      rw [List.foldl_cons]
      have hstep : collectStep catalog acc s = pushUnique acc gv := by
        simp [collectStep, hfind]
      rw [hstep]
      simp only [collectStrings, hfind]
      exact ih (pushUnique acc gv) (fun s2 hs2 => hall s2 (by simp [hs2]))

/-- A declared string absent from the catalog makes the set-building loop
panic with the expect message. -/
theorem collectStrings_panics (catalog : List GameVersion) :
    ∀ (strs : List String) (acc : List GameVersion),
      (∃ s ∈ strs, catFind catalog s = none) →
      collectStrings catalog strs acc = .panic "Invalid game version" := by
  intro strs
  induction strs with
  | nil =>
    rintro acc ⟨s, hs, _⟩
    cases hs
  | cons s rest ih =>
    intro acc hbad
    cases hfind : catFind catalog s with
    | none => simp [collectStrings, hfind]
    | some gv =>
      simp only [collectStrings, hfind]
      obtain ⟨s2, hs2, hn⟩ := hbad
      rcases List.mem_cons.mp hs2 with h1 | h1
      · rw [h1] at hn
        rw [hfind] at hn
        cases hn
      · exact ih _ ⟨s2, h1, hn⟩

/-- Invariant bundle for the set-building fold: membership
characterization, canonicity and freedom from duplicate strings. -/
theorem foldl_collectStep_props (catalog : List GameVersion) :
    ∀ (strs : List String) (acc : List GameVersion),
      (∀ s ∈ strs, (catFind catalog s).isSome) →
      (∀ y ∈ acc, catFind catalog y.version = some y) →
      (acc.map (fun x => x.version)).Nodup →
      (∀ x, x ∈ strs.foldl (collectStep catalog) acc ↔
         x ∈ acc ∨ ∃ s ∈ strs, catFind catalog s = some x) ∧
      (∀ y ∈ strs.foldl (collectStep catalog) acc,
         catFind catalog y.version = some y) ∧
      ((strs.foldl (collectStep catalog) acc).map
        (fun x => x.version)).Nodup := by
  intro strs
  induction strs with
  | nil =>
    intro acc _ hcanon hnd
    refine ⟨fun x => ?_, hcanon, hnd⟩
    simp
  | cons s rest ih =>
    intro acc hall hcanon hnd
    have hs := hall s (by simp)
    cases hfind : catFind catalog s with
    | none => rw [hfind] at hs; cases hs
    | some gv =>
      have hgvv : gv.version = s := catFind_version hfind
      have hgvc : catFind catalog gv.version = some gv := by
        rw [hgvv]; exact hfind
      have hstep : collectStep catalog acc s = pushUnique acc gv := by
        simp [collectStep, hfind]
      have hcanon2 := pushUnique_canon catalog acc gv hcanon hgvc
      have hnd2 := pushUnique_nodup acc gv hnd
      obtain ⟨ihmem, ihcanon, ihnd⟩ :=
        ih (pushUnique acc gv) (fun s2 hs2 => hall s2 (by simp [hs2]))
          hcanon2 hnd2
      rw [List.foldl_cons, hstep]
      refine ⟨fun x => ?_, ihcanon, ihnd⟩
      rw [ihmem x, mem_pushUnique_iff catalog acc gv x hcanon hgvc]
      constructor
      · rintro ((h | h) | h)
        · exact .inl h
        · exact .inr ⟨s, by simp, h ▸ hfind⟩
        · obtain ⟨s2, hs2, h2⟩ := h
          exact .inr ⟨s2, by simp [hs2], h2⟩
      · rintro (h | h)
        · exact .inl (.inl h)
        · obtain ⟨s2, hs2, h2⟩ := h
          rcases List.mem_cons.mp hs2 with h3 | h3
          · left; right
            rw [h3] at h2
            rw [hfind] at h2
            exact (Option.some.inj h2).symm
          · exact .inr ⟨s2, h3, h2⟩

/-- Membership in a mod's distinct supported set. -/
theorem setOk_mem (catalog : List GameVersion) (vs : List Version)
    (hall : ∀ s ∈ declaredStrings vs, (catFind catalog s).isSome)
    (x : GameVersion) :
    x ∈ setOk catalog vs ↔
      ∃ s ∈ declaredStrings vs, catFind catalog s = some x := by
  have h := (foldl_collectStep_props catalog (declaredStrings vs) []
    hall (by simp) (by simp)).1 x
  simpa [setOk] using h

/-- Elements of a mod's distinct supported set are canonical catalog
representatives. -/
theorem setOk_canon (catalog : List GameVersion) (vs : List Version)
    (hall : ∀ s ∈ declaredStrings vs, (catFind catalog s).isSome) :
    ∀ y ∈ setOk catalog vs, catFind catalog y.version = some y :=
  (foldl_collectStep_props catalog (declaredStrings vs) []
    hall (by simp) (by simp)).2.1

/-- A mod's distinct supported set has no duplicate version strings. -/
theorem setOk_nodup (catalog : List GameVersion) (vs : List Version)
    (hall : ∀ s ∈ declaredStrings vs, (catFind catalog s).isSome) :
    ((setOk catalog vs).map (fun x => x.version)).Nodup :=
  (foldl_collectStep_props catalog (declaredStrings vs) []
    hall (by simp) (by simp)).2.2

/-- String-level membership in a mod's distinct supported set: exactly the
declared strings. -/
theorem setOk_version_mem (catalog : List GameVersion) (vs : List Version)
    (hall : ∀ s ∈ declaredStrings vs, (catFind catalog s).isSome)
    (s : String) :
    s ∈ (setOk catalog vs).map (fun x => x.version) ↔
      s ∈ declaredStrings vs := by
  constructor
  · intro h
    obtain ⟨x, hx, hxv⟩ := List.mem_map.mp h
    obtain ⟨s2, hs2, h2⟩ := (setOk_mem catalog vs hall x).mp hx
    have := catFind_version h2
    rw [← hxv, this]
    exact hs2
  · intro h
    have hsome := hall s h
    cases hfind : catFind catalog s with
    | none => rw [hfind] at hsome; cases hsome
    | some gv =>
      have hgvv : gv.version = s := catFind_version hfind
      refine List.mem_map.mpr ⟨gv, ?_, hgvv⟩
      exact (setOk_mem catalog vs hall gv).mpr ⟨s, h, hfind⟩

/-- The per-mod loop of compatible_versions succeeds exactly with each mod's
distinct supported set when every declared string is in the catalog. -/
theorem collectSets_eq_ok (catalog : List GameVersion) :
    ∀ (ls : List (List Version)),
      (∀ vs ∈ ls, ∀ s ∈ declaredStrings vs, (catFind catalog s).isSome) →
      collectSets catalog ls = .ok (ls.map (setOk catalog)) := by
  intro ls
  induction ls with
  | nil => intro _; rfl
  | cons vs rest ih =>
    intro hall
    have h1 : modSupportedSet catalog vs = .ok (setOk catalog vs) :=
      collectStrings_eq_ok catalog (declaredStrings vs) []
        (hall vs (by simp))
    simp [collectSets, h1, ih (fun vs2 hvs2 => hall vs2 (by simp [hvs2]))]

/-- The per-mod loop of compatible_versions panics when any mod declares a
string absent from the catalog. -/
theorem collectSets_panics (catalog : List GameVersion) :
    ∀ (ls : List (List Version)),
      (∃ vs ∈ ls, ∃ s ∈ declaredStrings vs, catFind catalog s = none) →
      collectSets catalog ls = .panic "Invalid game version" := by
  intro ls
  induction ls with
  | nil =>
    rintro ⟨vs, hvs, _⟩
    cases hvs
  | cons vs rest ih =>
    intro hbad
    by_cases hhead : ∃ s ∈ declaredStrings vs, catFind catalog s = none
    · have h1 : modSupportedSet catalog vs = .panic "Invalid game version" :=
        collectStrings_panics catalog (declaredStrings vs) [] hhead
      simp [collectSets, h1]
    · have hallhead : ∀ s ∈ declaredStrings vs, (catFind catalog s).isSome := by
        intro s hs
        cases hfind : catFind catalog s with
        | none => exact absurd ⟨s, hs, hfind⟩ hhead
        | some gv => simp
      have h1 : modSupportedSet catalog vs = .ok (setOk catalog vs) :=
        collectStrings_eq_ok catalog (declaredStrings vs) [] hallhead
      obtain ⟨vs2, hvs2, hbad2⟩ := hbad
      rcases List.mem_cons.mp hvs2 with h2 | h2
      · rw [h2] at hbad2
        exact absurd hbad2 hhead
      · simp [collectSets, h1, ih ⟨vs2, h2, hbad2⟩]

/-- Count recorded in the tally for a version string (0 when absent). -/
def lookupTally : List (GameVersion × Nat) → String → Nat
  | [], _ => 0
  | (k, c) :: rest, s => if k.version == s then c else lookupTally rest s

/-- One tally insertion bumps exactly the inserted string's count. -/
theorem lookupTally_tallyInsert (t : List (GameVersion × Nat))
    (gv : GameVersion) (s : String) :
    lookupTally (tallyInsert t gv) s
      = if gv.version = s then lookupTally t s + 1 else lookupTally t s := by
  induction t with
  | nil =>
    by_cases h : gv.version = s <;> simp [tallyInsert, lookupTally, h]
  | cons p rest ih =>
    obtain ⟨k, c⟩ := p
    by_cases hk : k.version = gv.version
    · by_cases hs : gv.version = s
      · have hks : k.version = s := hk.trans hs
        simp [tallyInsert, lookupTally, hk, hs, hks]
      · have hks : ¬(k.version = s) := fun h2 => hs (hk.symm.trans h2)
        simp [tallyInsert, lookupTally, hk, hs, hks]
    · by_cases hks : k.version = s
      · have hs : ¬(gv.version = s) := fun h2 => hk (hks.trans h2.symm)
        have hs2 : ¬(s = gv.version) := fun h2 => hs h2.symm
        simp [tallyInsert, lookupTally, hk, hks, hs, hs2]
      · simp [tallyInsert, lookupTally, hk, hks, ih]

/-- Every key of a tally after insertion is the inserted version or an
existing key. -/
theorem tallyInsert_keys_subset (t : List (GameVersion × Nat))
    (gv : GameVersion) :
    ∀ p ∈ tallyInsert t gv, p.1 = gv ∨ ∃ q ∈ t, p.1 = q.1 := by
  induction t with
  | nil =>
    intro p hp
    simp only [tallyInsert, List.mem_singleton] at hp
    exact .inl (by rw [hp])
  | cons q2 rest ih =>
    obtain ⟨k, c⟩ := q2
    intro p hp
    by_cases hk : k.version = gv.version
    · have hbt : (k.version == gv.version) = true := by simp [hk]
      have hins : tallyInsert ((k, c) :: rest) gv = (k, c + 1) :: rest := by
        simp [tallyInsert, hbt]
      rw [hins] at hp
      rcases List.mem_cons.mp hp with h1 | h1
      · exact .inr ⟨(k, c), by simp, by rw [h1]⟩
      · exact .inr ⟨p, by simp [h1], rfl⟩
    · have hkb : (k.version == gv.version) = false := by
        rw [beq_eq_false_iff_ne]; exact hk
      simp only [tallyInsert, hkb, Bool.false_eq_true, if_false] at hp
      rcases List.mem_cons.mp hp with h1 | h1
      · exact .inr ⟨(k, c), by simp, by rw [h1]⟩
      · rcases ih p h1 with h2 | ⟨q3, hq3, h3⟩
        · exact .inl h2
        · exact .inr ⟨q3, by simp [hq3], h3⟩

/-- Tally insertion preserves freedom from duplicate key strings. -/
theorem tallyInsert_keys_nodup (t : List (GameVersion × Nat))
    (gv : GameVersion) (h : (t.map (fun p => p.1.version)).Nodup) :
    ((tallyInsert t gv).map (fun p => p.1.version)).Nodup := by
  induction t with
  | nil => simp [tallyInsert]
  | cons q rest ih =>
    obtain ⟨k, c⟩ := q
    have hh : k.version ∉ rest.map (fun p => p.1.version) ∧
        (rest.map (fun p => p.1.version)).Nodup := by
      simpa [List.nodup_cons] using h
    by_cases hk : k.version = gv.version
    · have hbt : (k.version == gv.version) = true := by simp [hk]
      have hins : tallyInsert ((k, c) :: rest) gv = (k, c + 1) :: rest := by
        simp [tallyInsert, hbt]
      rw [hins]
      simpa [List.nodup_cons] using h
    · have hkb : (k.version == gv.version) = false := by
        rw [beq_eq_false_iff_ne]; exact hk
      simp only [tallyInsert, hkb, Bool.false_eq_true, if_false,
        List.map_cons, List.nodup_cons]
      refine ⟨?_, ih hh.2⟩
      intro hmem
      obtain ⟨p, hp, hpv⟩ := List.mem_map.mp hmem
      rcases tallyInsert_keys_subset rest gv p hp with h1 | ⟨q2, hq2, h2⟩
      · exact hk (by rw [← hpv, h1])
      · exact hh.1 (List.mem_map.mpr ⟨q2, hq2, by rw [← h2, hpv]⟩)

/-- Folding one duplicate-free set into the tally adds one to exactly the
strings of the set. -/
theorem lookupTally_foldl_set (set : List GameVersion) (s : String) :
    ∀ (t : List (GameVersion × Nat)),
      (set.map (fun x => x.version)).Nodup →
      lookupTally (set.foldl tallyInsert t) s
        = lookupTally t s
          + (if s ∈ set.map (fun x => x.version) then 1 else 0) := by
  induction set with
  | nil => intro t _; simp
  | cons gv rest ih =>
    intro t hnd
    have hh : gv.version ∉ rest.map (fun x => x.version) ∧
        (rest.map (fun x => x.version)).Nodup := by
      simpa [List.nodup_cons] using hnd
    rw [List.foldl_cons, ih (tallyInsert t gv) hh.2, lookupTally_tallyInsert]
    by_cases hs : gv.version = s
    · have hnr : s ∉ rest.map (fun x => x.version) := by
        rw [← hs]; exact hh.1
      simp [hs, hnr]
    · have hs2 : s ≠ gv.version := fun h2 => hs h2.symm
      simp [hs, List.map_cons, List.mem_cons, hs2]

/-- Folding all sets from the empty tally counts, for each string, the sets
containing it. -/
theorem lookupTally_tallyAll (sets : List (List GameVersion)) (s : String)
    (hnd : ∀ set ∈ sets, (set.map (fun x => x.version)).Nodup) :
    lookupTally (tallyAll sets) s
      = sets.countP (fun set => decide (s ∈ set.map (fun x => x.version))) := by
  have hgen : ∀ (ss : List (List GameVersion)) (t : List (GameVersion × Nat)),
      (∀ set ∈ ss, (set.map (fun x => x.version)).Nodup) →
      lookupTally (ss.foldl (fun t2 set => set.foldl tallyInsert t2) t) s
        = lookupTally t s
          + ss.countP (fun set => decide (s ∈ set.map (fun x => x.version))) := by
    intro ss
    induction ss with
    | nil => intro t _; simp
    | cons set rest ih =>
      intro t hnd2
      rw [List.foldl_cons,
        ih (set.foldl tallyInsert t) (fun u hu => hnd2 u (by simp [hu])),
        lookupTally_foldl_set set s t (hnd2 set (by simp)), List.countP_cons]
      by_cases hmem : s ∈ set.map (fun x => x.version)
      · simp only [hmem, if_true, decide_eq_true_eq, decide_True]
        simp [hmem]
        omega
      · simp [hmem]
  have := hgen sets [] hnd
  simpa [tallyAll, lookupTally] using this

/-- Every tally key originates from one of the tallied sets. -/
theorem tallyAll_keys_subset (sets : List (List GameVersion)) :
    ∀ p ∈ tallyAll sets, ∃ set ∈ sets, p.1 ∈ set := by
  have hone : ∀ (set : List GameVersion) (t : List (GameVersion × Nat))
      (p : GameVersion × Nat), p ∈ set.foldl tallyInsert t →
      p.1 ∈ set ∨ ∃ q ∈ t, p.1 = q.1 := by
    intro set
    induction set with
    | nil => intro t p hp; exact .inr ⟨p, hp, rfl⟩
    | cons gv rest ih =>
      intro t p hp
      rw [List.foldl_cons] at hp
      rcases ih (tallyInsert t gv) p hp with h | ⟨q, hq, h2⟩
      · exact .inl (by simp [h])
      · rcases tallyInsert_keys_subset t gv q hq with h3 | ⟨q2, hq2, h4⟩
        · left
          rw [h2, h3]
          simp
        · exact .inr ⟨q2, hq2, h2.trans h4⟩
  have hgen : ∀ (ss : List (List GameVersion)) (t : List (GameVersion × Nat))
      (p : GameVersion × Nat),
      p ∈ ss.foldl (fun t2 set => set.foldl tallyInsert t2) t →
      (∃ set ∈ ss, p.1 ∈ set) ∨ ∃ q ∈ t, p.1 = q.1 := by
    intro ss
    induction ss with
    | nil => intro t p hp; exact .inr ⟨p, hp, rfl⟩
    | cons set rest ih =>
      intro t p hp
      rw [List.foldl_cons] at hp
      rcases ih (set.foldl tallyInsert t) p hp with h1 | ⟨q, hq, h2⟩
      · obtain ⟨u, hu, h3⟩ := h1
        exact .inl ⟨u, by simp [hu], h3⟩
      · rcases hone set t q hq with h3 | ⟨q2, hq2, h4⟩
        · exact .inl ⟨set, by simp, by rw [h2]; exact h3⟩
        · exact .inr ⟨q2, hq2, h2.trans h4⟩
  intro p hp
  rcases hgen sets [] p hp with h1 | ⟨q, hq, _⟩
  · exact h1
  · cases hq

/-- The tally never has two entries with the same key string. -/
theorem tallyAll_keys_nodup (sets : List (List GameVersion)) :
    ((tallyAll sets).map (fun p => p.1.version)).Nodup := by
  have hone : ∀ (set : List GameVersion) (t : List (GameVersion × Nat)),
      (t.map (fun p => p.1.version)).Nodup →
      ((set.foldl tallyInsert t).map (fun p => p.1.version)).Nodup := by
    intro set
    induction set with
    | nil => intro t h; exact h
    | cons gv rest ih =>
      intro t h
      rw [List.foldl_cons]
      exact ih _ (tallyInsert_keys_nodup t gv h)
  have hgen : ∀ (ss : List (List GameVersion)) (t : List (GameVersion × Nat)),
      (t.map (fun p => p.1.version)).Nodup →
      ((ss.foldl (fun t2 set => set.foldl tallyInsert t2) t).map
        (fun p => p.1.version)).Nodup := by
    intro ss
    induction ss with
    | nil => intro t h; exact h
    | cons set rest ih =>
      intro t h
      rw [List.foldl_cons]
      exact ih _ (hone set t h)
  simpa [tallyAll] using hgen sets [] (by simp)

/-- In a tally with duplicate-free keys, looking up an entry's own string
returns that entry's count. -/
theorem lookupTally_self (t : List (GameVersion × Nat))
    (hnd : (t.map (fun p => p.1.version)).Nodup) :
    ∀ p ∈ t, lookupTally t p.1.version = p.2 := by
  induction t with
  | nil => intro p hp; cases hp
  | cons q rest ih =>
    obtain ⟨k, c⟩ := q
    have hh : k.version ∉ rest.map (fun p => p.1.version) ∧
        (rest.map (fun p => p.1.version)).Nodup := by
      simpa [List.nodup_cons] using hnd
    intro p hp
    rcases List.mem_cons.mp hp with h1 | h1
    · rw [h1]
      simp [lookupTally]
    · have hne : (k.version == p.1.version) = false := by
        rw [beq_eq_false_iff_ne]
        intro he
        exact hh.1 (List.mem_map.mpr ⟨p, h1, he.symm⟩)
      simp [lookupTally, hne, ih hh.2 p h1]

/-- A string with a nonzero tally count has a tally entry. -/
theorem lookupTally_pos (t : List (GameVersion × Nat)) (s : String)
    (h : lookupTally t s ≠ 0) : ∃ p ∈ t, p.1.version = s := by
  induction t with
  | nil => simp [lookupTally] at h
  | cons q rest ih =>
    obtain ⟨k, c⟩ := q
    by_cases hk : (k.version == s) = true
    · exact ⟨(k, c), by simp, by simpa using hk⟩
    · have hkb : (k.version == s) = false := by
        simpa using hk
      rw [lookupTally, if_neg (by simp [hkb])] at h
      obtain ⟨p, hp, h2⟩ := ih h
      exact ⟨p, by simp [hp], h2⟩

/-- A string is declared by a mod's release list iff some release declares
it. -/
theorem declared_mem (vs : List Version) (s : String) :
    s ∈ declaredStrings vs ↔ ∃ v ∈ vs, s ∈ v.game_versions := by
  unfold declaredStrings
  constructor
  · intro h
    obtain ⟨l, hl, hsl⟩ := List.mem_flatten.mp h
    obtain ⟨v, hv, hveq⟩ := List.mem_map.mp hl
    exact ⟨v, hv, hveq ▸ hsl⟩
  · rintro ⟨v, hv, hs⟩
    exact List.mem_flatten.mpr ⟨v.game_versions, List.mem_map.mpr ⟨v, hv, rfl⟩, hs⟩

/-- Release-level catalog coverage transported to the joined per-mod
lists. -/
theorem catalog_covers_map (catalog : List GameVersion)
    (fetchL : String → List Version) (mods : List String)
    (hall : ∀ m ∈ mods, ∀ v ∈ fetchL m, ∀ s ∈ v.game_versions,
      (catFind catalog s).isSome) :
    ∀ vs ∈ mods.map fetchL, ∀ s ∈ declaredStrings vs,
      (catFind catalog s).isSome := by
  intro vs hvs s hs
  obtain ⟨m, hm, hmeq⟩ := List.mem_map.mp hvs
  obtain ⟨v, hv, hsv⟩ := (declared_mem vs s).mp hs
  exact hall m hm v (hmeq ▸ hv) s hsv

/-- C6 counterexample: a mod declaring the string 1.22 against a catalog
holding only 1.21 makes the whole resolution panic through
expect("Invalid game version"); no Error value is returned to the caller
(the Error enum has no InvalidPlatformVersion variant at all). -/
theorem compatible_versions_unknown_string_concrete :
    compatible_versions [GameVersion.mk "1.21" VersionType.Release 100 true]
        (fun _ => .ok [Version.mk "1.0" ["1.22"] ["fabric"] []]) ["sodium"]
      = .panic "Invalid game version" ∧
    (compatible_versions [GameVersion.mk "1.21" VersionType.Release 100 true]
        (fun _ => .ok [Version.mk "1.0" ["1.22"] ["fabric"] []])
        ["sodium"]).isErr = false := by
  decide

/-- C6 (amended): whenever some mod's release declares a platform-version
string absent from the fetched catalog, the entire resolution aborts with
the panic of expect("Invalid game version"); the unmatched string is never
silently dropped from the tally (but the abort is a panic, not an error
value returned to the caller). -/
theorem compatible_versions_unknown_string_panics (catalog : List GameVersion)
    (fetchL : String → List Version) (mods : List String)
    (hbad : ∃ m ∈ mods, ∃ v ∈ fetchL m, ∃ s ∈ v.game_versions,
      catFind catalog s = none) :
    compatible_versions catalog (fun m => .ok (fetchL m)) mods
      = .panic "Invalid game version" := by
  obtain ⟨m, hm, v, hv, s, hs, hnone⟩ := hbad
  have hbad2 : ∃ vs ∈ mods.map fetchL, ∃ s2 ∈ declaredStrings vs,
      catFind catalog s2 = none :=
    ⟨fetchL m, List.mem_map.mpr ⟨m, hm, rfl⟩, s,
      (declared_mem (fetchL m) s).mpr ⟨v, hv, hs⟩, hnone⟩
  simp [compatible_versions, drainJoin_ok_map,
    collectSets_panics catalog (mods.map fetchL) hbad2]

/-- Witness for compatible_versions_unknown_string_panics. -/
theorem compatible_versions_unknown_string_panics_witness :
    (∃ m ∈ ["lithium"],
      ∃ v ∈ (fun _ : String => [Version.mk "2.0" ["1.19"] ["fabric"] []]) m,
      ∃ s ∈ v.game_versions,
        catFind [GameVersion.mk "1.21" VersionType.Release 100 true] s
          = none) ∧
    compatible_versions [GameVersion.mk "1.21" VersionType.Release 100 true]
        (fun m => .ok ((fun _ : String =>
          [Version.mk "2.0" ["1.19"] ["fabric"] []]) m)) ["lithium"]
      = .panic "Invalid game version" :=
  ⟨by decide,
    compatible_versions_unknown_string_panics
      [GameVersion.mk "1.21" VersionType.Release 100 true]
      (fun _ : String => [Version.mk "2.0" ["1.19"] ["fabric"] []])
      ["lithium"] (by decide)⟩

/-- C8: when every declared string is in the catalog and at least one mod
has zero releases under the loader filter, resolution returns the empty
list, not an error: the empty set contributes to no tally and no version
can reach the full count. -/
theorem compatible_versions_empty_releases (catalog : List GameVersion)
    (fetchL : String → List Version) (mods : List String) (hne : mods ≠ [])
    (hall : ∀ m ∈ mods, ∀ v ∈ fetchL m, ∀ s ∈ v.game_versions,
      (catFind catalog s).isSome)
    (hempty : ∃ m ∈ mods, fetchL m = []) :
    compatible_versions catalog (fun m => .ok (fetchL m)) mods = .ok [] := by
  have hallD := catalog_covers_map catalog fetchL mods hall
  have hsets := collectSets_eq_ok catalog (mods.map fetchL) hallD
  have hsnd : ∀ set ∈ (mods.map fetchL).map (setOk catalog),
      (set.map (fun x => x.version)).Nodup := by
    intro set hset
    obtain ⟨vs, hvs, hveq⟩ := List.mem_map.mp hset
    exact hveq ▸ setOk_nodup catalog vs (hallD vs hvs)
  have hfilter : (tallyAll ((mods.map fetchL).map (setOk catalog))).filter
      (fun p => p.2 == mods.length) = [] := by
    rw [List.filter_eq_nil_iff]
    intro p hp hbeq
    have hp2 : p.2 = mods.length := by simpa using hbeq
    have hself := lookupTally_self _
      (tallyAll_keys_nodup ((mods.map fetchL).map (setOk catalog))) p hp
    have hcount := lookupTally_tallyAll ((mods.map fetchL).map (setOk catalog))
      p.1.version hsnd
    obtain ⟨m, hm, hfm⟩ := hempty
    have hmem0 : ([] : List GameVersion)
        ∈ (mods.map fetchL).map (setOk catalog) := by
      refine List.mem_map.mpr ⟨fetchL m, List.mem_map.mpr ⟨m, hm, rfl⟩, ?_⟩
      rw [hfm]
      rfl
    have hcp : ((mods.map fetchL).map (setOk catalog)).countP
        (fun set => decide (p.1.version ∈ set.map (fun x => x.version)))
        = ((mods.map fetchL).map (setOk catalog)).length := by
      rw [← hcount, hself, hp2]
      simp
    have := List.countP_eq_length.mp hcp ([] : List GameVersion) hmem0
    simp at this
  rw [List.map_map] at hfilter
  simp [compatible_versions, drainJoin_ok_map, hsets, hfilter, sortLe]

/-- Witness for compatible_versions_empty_releases: mod a supports 1.21, mod
b has no releases. -/
theorem compatible_versions_empty_releases_witness :
    ((["a", "b"] : List String) ≠ [] ∧
     (∀ m ∈ ["a", "b"],
       ∀ v ∈ (fun m2 : String =>
          if m2 == "a" then [Version.mk "1.0" ["1.21"] ["fabric"] []]
          else []) m,
       ∀ s ∈ v.game_versions,
         (catFind [GameVersion.mk "1.21" VersionType.Release 100 true]
           s).isSome) ∧
     (∃ m ∈ ["a", "b"], (fun m2 : String =>
        if m2 == "a" then [Version.mk "1.0" ["1.21"] ["fabric"] []]
        else []) m = [])) ∧
    compatible_versions [GameVersion.mk "1.21" VersionType.Release 100 true]
        (fun m => .ok ((fun m2 : String =>
          if m2 == "a" then [Version.mk "1.0" ["1.21"] ["fabric"] []]
          else []) m)) ["a", "b"]
      = .ok [] :=
  ⟨⟨by decide, by decide, by decide⟩,
    compatible_versions_empty_releases
      [GameVersion.mk "1.21" VersionType.Release 100 true]
      (fun m2 : String =>
        if m2 == "a" then [Version.mk "1.0" ["1.21"] ["fabric"] []] else [])
      ["a", "b"] (by decide) (by decide) (by decide)⟩

/-- The per-mod distinct supported sets a successful resolver run tallies. -/
def resolverSets (catalog : List GameVersion) (fetchL : String → List Version)
    (mods : List String) : List (List GameVersion) :=
  (mods.map fetchL).map (setOk catalog)

/-- The unsorted compatible list a successful resolver run computes: tally
keys whose count equals the number of mods. -/
def resolverCompat (catalog : List GameVersion)
    (fetchL : String → List Version) (mods : List String) :
    List GameVersion :=
  ((tallyAll (resolverSets catalog fetchL mods)).filter
    (fun p => p.2 == mods.length)).map (fun p => p.1)

/-- C2: with distinct mods whose fetches all succeed and declare only
catalog strings, resolution succeeds and returns exactly the
set-intersection of the per-mod distinct supported version sets — a
duplicate-free list containing a catalog version iff every mod has a
release declaring it — sorted newest-first by publication date. -/
theorem compatible_versions_intersection (catalog : List GameVersion)
    (fetchL : String → List Version) (mods : List String)
    (hne : mods ≠ []) (hnd : mods.Nodup)
    (hcat : (catalog.map (fun x => x.version)).Nodup)
    (hall : ∀ m ∈ mods, ∀ v ∈ fetchL m, ∀ s ∈ v.game_versions,
      (catFind catalog s).isSome) :
    ∃ out, compatible_versions catalog (fun m => .ok (fetchL m)) mods
        = .ok out ∧
      (∀ gv, gv ∈ out ↔ gv ∈ catalog ∧
        ∀ m ∈ mods, ∃ v ∈ fetchL m, gv.version ∈ v.game_versions) ∧
      (out.map (fun x => x.version)).Nodup ∧
      out.Pairwise (fun a b => b.date ≤ a.date) := by
  have hallD := catalog_covers_map catalog fetchL mods hall
  have hsets : collectSets catalog (mods.map fetchL)
      = .ok (resolverSets catalog fetchL mods) :=
    collectSets_eq_ok catalog (mods.map fetchL) hallD
  have hsnd : ∀ set ∈ resolverSets catalog fetchL mods,
      (set.map (fun x => x.version)).Nodup := by
    intro set hset
    simp only [resolverSets] at hset
    obtain ⟨vs, hvs, hveq⟩ := List.mem_map.mp hset
    exact hveq ▸ setOk_nodup catalog vs (hallD vs hvs)
  have hlen : (resolverSets catalog fetchL mods).length = mods.length := by
    simp [resolverSets]
  have hsetm : ∀ m ∈ mods,
      setOk catalog (fetchL m) ∈ resolverSets catalog fetchL mods := by
    intro m hm
    simp only [resolverSets]
    exact List.mem_map.mpr ⟨fetchL m, List.mem_map.mpr ⟨m, hm, rfl⟩, rfl⟩
  have hrun : compatible_versions catalog (fun m => .ok (fetchL m)) mods
      = .ok ((sortLe dateLe (resolverCompat catalog fetchL mods)).reverse) := by
    simp only [compatible_versions, drainJoin_ok_map, hsets]
    rfl
  have hkey_mem : ∀ gv, gv ∈ resolverCompat catalog fetchL mods ↔
      gv ∈ catalog ∧
        ∀ m ∈ mods, ∃ v ∈ fetchL m, gv.version ∈ v.game_versions := by
    intro gv
    constructor
    · intro h
      obtain ⟨p, hpf, hp1⟩ := List.mem_map.mp h
      have hp1b : p.1 = gv := hp1
      have hpmem := (List.mem_filter.mp hpf).1
      have hp2 : p.2 = mods.length := by
        have := (List.mem_filter.mp hpf).2
        simpa using this
      obtain ⟨set, hset, hpset⟩ := tallyAll_keys_subset _ p hpmem
      have hsetIn := hset
      simp only [resolverSets] at hsetIn
      obtain ⟨vs, hvs, hveq⟩ := List.mem_map.mp hsetIn
      have hcanon : catFind catalog p.1.version = some p.1 :=
        setOk_canon catalog vs (hallD vs hvs) p.1 (by rw [hveq]; exact hpset)
      have hmemcat : p.1 ∈ catalog := catFind_mem hcanon
      have hself := lookupTally_self _ (tallyAll_keys_nodup _) p hpmem
      have hcp : (resolverSets catalog fetchL mods).countP
          (fun set2 => decide (p.1.version ∈ set2.map (fun x => x.version)))
          = (resolverSets catalog fetchL mods).length := by
        rw [← lookupTally_tallyAll _ _ hsnd, hself, hp2, hlen]
      have hallsets := List.countP_eq_length.mp hcp
      refine ⟨hp1b ▸ hmemcat, ?_⟩
      intro m hm
      have h1 := hallsets _ (hsetm m hm)
      rw [decide_eq_true_eq] at h1
      have h2 := (setOk_version_mem catalog (fetchL m)
        (hallD _ (List.mem_map.mpr ⟨m, hm, rfl⟩)) p.1.version).mp h1
      rw [hp1b] at h2
      exact (declared_mem (fetchL m) gv.version).mp h2
    · rintro ⟨hmemcat, hsupp⟩
      have hcanon : catFind catalog gv.version = some gv :=
        catFind_self catalog hcat gv hmemcat
      have hallsets : ∀ set ∈ resolverSets catalog fetchL mods,
          (fun set2 =>
            decide (gv.version ∈ set2.map (fun x => x.version))) set
              = true := by
        intro set hset
        have hsetIn := hset
        simp only [resolverSets] at hsetIn
        obtain ⟨vs, hvs, hveq⟩ := List.mem_map.mp hsetIn
        obtain ⟨m, hm, hmeq⟩ := List.mem_map.mp hvs
        rw [decide_eq_true_eq, ← hveq]
        apply (setOk_version_mem catalog vs (hallD vs hvs) gv.version).mpr
        rw [← hmeq]
        exact (declared_mem (fetchL m) gv.version).mpr (hsupp m hm)
      have hcp := List.countP_eq_length.mpr hallsets
      have hlookup :
          lookupTally (tallyAll (resolverSets catalog fetchL mods)) gv.version
            = mods.length := by
        rw [lookupTally_tallyAll _ _ hsnd, hcp, hlen]
      have hpos :
          lookupTally (tallyAll (resolverSets catalog fetchL mods)) gv.version
            ≠ 0 := by
        rw [hlookup]
        intro h0
        exact hne (List.length_eq_zero.mp h0)
      obtain ⟨p, hp, hpv⟩ := lookupTally_pos _ _ hpos
      obtain ⟨set, hset, hpset⟩ := tallyAll_keys_subset _ p hp
      have hsetIn := hset
      simp only [resolverSets] at hsetIn
      obtain ⟨vs, hvs, hveq⟩ := List.mem_map.mp hsetIn
      have hp1canon : catFind catalog p.1.version = some p.1 :=
        setOk_canon catalog vs (hallD vs hvs) p.1 (by rw [hveq]; exact hpset)
      have hp1gv : p.1 = gv := by
        rw [hpv, hcanon] at hp1canon
        exact (Option.some.inj hp1canon).symm
      have hself := lookupTally_self _ (tallyAll_keys_nodup _) p hp
      have hp2 : p.2 = mods.length := by
        rw [← hself, hpv]
        exact hlookup
      exact List.mem_map.mpr
        ⟨p, List.mem_filter.mpr ⟨hp, by simp [hp2]⟩, hp1gv⟩
  refine ⟨(sortLe dateLe (resolverCompat catalog fetchL mods)).reverse,
    hrun, ?_, ?_, ?_⟩
  · intro gv
    rw [List.mem_reverse, (perm_sortLe dateLe _).mem_iff]
    exact hkey_mem gv
  · have hcompnd : ((resolverCompat catalog fetchL mods).map
        (fun x => x.version)).Nodup := by
      have hsub : (((tallyAll (resolverSets catalog fetchL mods)).filter
          (fun p => p.2 == mods.length)).map
            (fun p => p.1.version)).Sublist
          ((tallyAll (resolverSets catalog fetchL mods)).map
            (fun p => p.1.version)) :=
        List.Sublist.map _ (List.filter_sublist _)
      have hfil := List.Nodup.sublist hsub (tallyAll_keys_nodup _)
      simp only [resolverCompat, List.map_map]
      exact hfil
    have hperm : (((sortLe dateLe
        (resolverCompat catalog fetchL mods)).reverse).map
          (fun x => x.version)).Perm
        ((resolverCompat catalog fetchL mods).map (fun x => x.version)) :=
      List.Perm.map _ ((List.reverse_perm _).trans (perm_sortLe dateLe _))
    exact hperm.nodup_iff.mpr hcompnd
  · have htrans : ∀ a b c : GameVersion, dateLe a b = true →
        dateLe b c = true → dateLe a c = true := by
      intro a b c h1 h2
      simp only [dateLe, decide_eq_true_eq] at h1 h2 ⊢
      exact le_trans h1 h2
    have htot : ∀ a b : GameVersion, dateLe a b = true ∨ dateLe b a = true := by
      intro a b
      simp only [dateLe, decide_eq_true_eq]
      exact le_total a.date b.date
    have hsorted := pairwise_sortLe dateLe htrans htot
      (resolverCompat catalog fetchL mods)
    rw [List.pairwise_reverse]
    exact hsorted.imp (fun h => by simpa [dateLe] using h)

/-- Fixture catalog for the resolver witness: 1.21 newer than 1.20. -/
def witCatalog : List GameVersion :=
  [⟨"1.21", .Release, 100, true⟩, ⟨"1.20", .Release, 50, false⟩]

/-- Fixture fetch for the resolver witness: mod a supports 1.20 and 1.21,
mod b supports only 1.21. -/
def witFetch (m : String) : List Version :=
  if m == "a" then [⟨"1.0", ["1.20", "1.21"], ["fabric"], []⟩]
  else [⟨"3.0", ["1.21"], ["fabric"], []⟩]

/-- Witness for compatible_versions_intersection on the two-mod fixture. -/
theorem compatible_versions_intersection_witness :
    ((["a", "b"] : List String) ≠ [] ∧ (["a", "b"] : List String).Nodup ∧
      (witCatalog.map (fun x => x.version)).Nodup ∧
      (∀ m ∈ (["a", "b"] : List String), ∀ v ∈ witFetch m,
        ∀ s ∈ v.game_versions, (catFind witCatalog s).isSome)) ∧
    (∃ out, compatible_versions witCatalog (fun m => .ok (witFetch m))
        ["a", "b"] = .ok out ∧
      (∀ gv, gv ∈ out ↔ gv ∈ witCatalog ∧
        ∀ m ∈ (["a", "b"] : List String), ∃ v ∈ witFetch m,
          gv.version ∈ v.game_versions) ∧
      (out.map (fun x => x.version)).Nodup ∧
      out.Pairwise (fun a b => b.date ≤ a.date)) :=
  ⟨⟨by decide, by decide, by decide, by decide⟩,
    compatible_versions_intersection witCatalog witFetch ["a", "b"]
      (by decide) (by decide) (by decide) (by decide)⟩
